import Mathlib

/-!
A verification model of the judgment-evaluation engine of a-mir-formality:
the `judgment_fn!` / `push_rules!` macros of
`crates/formality-core/src/judgment.rs`, the `Db` knowledge-base handle of
`crates/formality-logic/src/db.rs`, and the `ToClause` trait of
`crates/formality-decl/src/to_clause.rs`.

The two macros expand, for each declared judgment, into a function that
upcasts its inputs, checks the declared assertions, tries the declared
trivial fast paths, and then runs a least-fixed-point loop whose body
evaluates the judgment's rule list.  We embed the expanded code as data:

* a rule is a table (`Rule`): conclusion patterns matched component-wise
  against the input, an ordered list of conditions with an optional match
  commit point (`!`), and a conclusion function;
* `evalConds` is the interpreter corresponding to the `@body` arms of
  `push_rules!`, `matchInputs` to the `@match` arms, `accumGo`/`accumRule`
  to the `@accum` arms, and `recordFailure` to the `@record_failure` arm;
* `judgment_fn` is the body of the function produced by `judgment_fn!`,
  over an abstract round function `F` standing for the "Next value"
  closure (rule evaluation; its determinism reflects that all rule
  conditions and knowledge-base queries are deterministic functions).

Mutable `Set` accumulators (`output`, `failed_rules`) become explicitly
threaded `Finset` values; the thread-local `JudgmentStack` becomes an
explicit stack argument.  The crate's `fixed_point.rs` and
`proven_set.rs` are not among the staged sources; the definitions that
depend on them say so in their doc comments and follow the specification's
description of the missing code.
-/

namespace Formality

/-- Why a single rule failed.  The constructors `IfFalse` (with the source
text of the test) and `IfLetDidNotMatch` (with the pattern text and the
rendered value) appear in `judgment.rs` at the `@body` arms for `(if ...)`
and `(if let ...)`.  The third constructor is Modelled from the spec: the
enum itself lives in `proven_set.rs`, which is not among the staged
sources; the spec lists a third cause, *iteration-source-error*, carrying
the text of the expression that could not be converted into a sequence. -/
inductive RuleFailureCause where
  | IfFalse (expr : String)
  | IfLetDidNotMatch (pattern : String) (value : String)
  | IterationSourceError (expr : String)
  deriving DecidableEq, Repr

/-- Source provenance of a failing condition: the `file!()`, `line!()`,
`column!()` values recorded by the `@record_failure` arm of `push_rules!`. -/
structure Prov where
  file : String
  line : Nat
  column : Nat
  deriving DecidableEq, Repr

/-- One entry of the failure diagnostics, as built by the `@record_failure`
arm of `push_rules!`: the rule name and the step index at which the rule
failed, the source provenance, and the failure cause. -/
structure FailedRule where
  rule_name_index : Option (String × Nat)
  file : String
  line : Nat
  column : Nat
  cause : RuleFailureCause
  deriving DecidableEq, Repr

/-- Modelled from the spec: `FailedJudgment` lives in `proven_set.rs`, not
among the staged sources; the spec describes it as the original input plus
the set of `FailedRule` entries. -/
structure FailedJudgment (I : Type) where
  input : I
  failed_rules : Finset FailedRule

/-- Modelled from the spec: `ProvenSet` lives in `proven_set.rs`, not among
the staged sources.  The spec's `Outcome` is either `Proven` of a
non-empty output set or `Failed` of a `FailedJudgment`; the engine in
`judgment.rs` builds it through `ProvenSet::proven` and
`ProvenSet::failed_rules`. -/
inductive ProvenSet (I O : Type) where
  | proven (s : Finset O)
  | failed (f : FailedJudgment I)

/-- Constructor corresponding to `ProvenSet::failed_rules(&input, failed_rules)`. -/
def ProvenSet.failed_rules {I O : Type} (input : I) (fr : Finset FailedRule) :
    ProvenSet I O :=
  ProvenSet.failed ⟨input, fr⟩

end Formality

namespace Formality

/-! The `Db` handle of `formality-logic/src/db.rs`.  The handle wraps an
`Arc<dyn Database + Send>` together with a `SolverConfiguration`; its
`PartialEq`/`Ord`/`Hash` impls all defer to `Db::fields`, which exposes
`Arc::as_ptr` (pointer identity of the shared implementor) and a reference
to the configuration.  We model the `Arc` by the address it points to: all
the compared code ever reads from the `Arc` is that address. -/

/-- The solver configuration tag of `db.rs` (a single strategy today). -/
inductive SolverConfiguration where
  | Cosld
  deriving DecidableEq, Repr

/-- The discriminant a `Hash` impl feeds to the hasher for this fieldless enum. -/
def SolverConfiguration.toNat : SolverConfiguration → Nat
  | SolverConfiguration.Cosld => 0

/-- Derived `Ord` on the fieldless enum `SolverConfiguration`: with a single
variant every comparison is `Equal`. -/
def SolverConfiguration.cmp : SolverConfiguration → SolverConfiguration → Ordering
  | SolverConfiguration.Cosld, SolverConfiguration.Cosld => Ordering.eq

/-- The handle to the database: `struct Db { db: Arc<dyn Database + Send>,
solver_config: SolverConfiguration }`.  The field `db` holds the address of
the shared implementor (`Arc::as_ptr`), which is the only part of the `Arc`
the equality, ordering and hashing code reads. -/
structure Db where
  db : Nat
  solver_config : SolverConfiguration
  deriving DecidableEq, Repr

/-- `Db::fields`: the pair `(Arc::as_ptr(db), solver_config)` every
comparison impl defers to. -/
def Db.fields (d : Db) : Nat × SolverConfiguration :=
  (d.db, d.solver_config)

/-- `PartialEq for Db`: `self.fields().eq(&other.fields())`. -/
def Db.beq (a b : Db) : Bool :=
  decide (a.fields = b.fields)

/-- `Ord for Db`: `self.fields().cmp(&other.fields())`, the lexicographic
tuple order of Rust. -/
def Db.cmp (a b : Db) : Ordering :=
  match compare a.fields.1 b.fields.1 with
  | Ordering.eq => SolverConfiguration.cmp a.fields.2 b.fields.2
  | o => o

/-- `Hash for Db`: the data stream `self.fields().hash(state)` feeds to the
hasher — the pointer address followed by the enum discriminant. -/
def Db.hashStream (d : Db) : List Nat :=
  [d.fields.1, d.fields.2.toNat]

/-- `Clone for Db` (derived): cloning the `Arc` yields a handle to the same
allocation (same `Arc::as_ptr`), and the configuration is `Copy`. -/
def Db.clone (d : Db) : Db :=
  ⟨d.db, d.solver_config⟩

end Formality

namespace Formality

/-! The `ToClause` trait of `formality-decl/src/to_clause.rs` and its
blanket impls for `Vec<T>` and `Option<T>`: both are
`self.iter().flat_map(|e| e.to_clauses(program)).collect()`. -/

/-- The `ToClause` trait: `fn to_clauses(&self, program: &Program) ->
Vec<ProgramClause>`.  `Program` and `ProgramClause` are opaque grammar
types supplied by `formality-types`. -/
class ToClause (Program ProgramClause T : Type) where
  to_clauses : T → Program → List ProgramClause

/-- `impl<T: ToClause> ToClause for Vec<T>`:
`self.iter().flat_map(|e| e.to_clauses(program)).collect()`. -/
instance {P C T : Type} [ToClause P C T] : ToClause P C (List T) where
  to_clauses v program := v.flatMap (fun e => ToClause.to_clauses e program)

/-- `impl<T: ToClause> ToClause for Option<T>`: `self.iter()` yields the
inner value when present, then the same `flat_map`/`collect`. -/
instance {P C T : Type} [ToClause P C T] : ToClause P C (Option T) where
  to_clauses o program := o.toList.flatMap (fun e => ToClause.to_clauses e program)

end Formality

namespace Formality

/-! The rule engine: the code generated by the `push_rules!` macro of
`judgment.rs`.  `V` is the (already typed) value domain of the judgment's
input components and of the bindings a rule accumulates; `O` is the
judgment's output type.  A rule's binding environment is the list of
values bound so far, written `List V`; the condition interpreter is
generic in the environment type `σ`. -/

variable {V σ O : Type}

/-- A condition of a rule, one constructor per `@body` arm of
`push_rules!`:

* `ifCond`: `(if <expr>)` — proceed when the boolean test is true, else
  record cause `IfFalse` with the source text of the test;
* `ifLet`: `(if let <pat> = <expr>)` — evaluate the expression and match
  the pattern against a clone of its value; proceed with the extended
  bindings on success, else record cause `IfLetDidNotMatch` with the
  pattern text and the rendered (`{:?}`-formatted) value;
* `letCond`: `(let <binding> = <expr>)` — bind unconditionally;
* `iter`: `(<expr> => <binding>)` — convert the expression into a sequence
  via `TryIntoIter::try_into_iter` and continue once per produced element.
  `try_into_iter` lives in `proven_set.rs`, which is not among the staged
  sources; its failure is Modelled from the spec: the conversion either
  yields the sequence or fails with cause *iteration-source-error*
  carrying the stringified expression.

Each failing form carries the provenance (`file!()`/`line!()`/`column!()`)
that `@record_failure` stores. -/
inductive Condition (σ : Type) where
  | ifCond (test : σ → Bool) (text : String) (prov : Prov)
  | ifLet (matcher : σ → Option σ) (pattern : String) (render : σ → String) (prov : Prov)
  | letCond (bind : σ → σ)
  | iter (source : σ → Option (List σ)) (text : String) (prov : Prov)

/-- One token group of a rule's condition list as the `@accum` phase of
`push_rules!` sees it: either a parenthesized condition, or the `!` match
commit point marker. -/
inductive RuleItem (σ : Type) where
  | cond (c : Condition σ)
  | bang

/-- The `@accum` phase of `push_rules!`: walk the rule's token groups
carrying `(match_index, current_index)`; a parenthesized condition is
appended and bumps `current_index`, a `!` overwrites `match_index` with
`current_index`. -/
def accumGo {σ : Type} (matchIndex currentIndex : Nat) (acc : List (Condition σ)) :
    List (RuleItem σ) → Nat × List (Condition σ)
  | [] => (matchIndex, acc)
  | RuleItem.bang :: rest => accumGo currentIndex currentIndex acc rest
  | RuleItem.cond c :: rest => accumGo matchIndex (currentIndex + 1) (acc ++ [c]) rest

/-- Accumulation of a whole rule.  The macro seeds the accumulator with
`accum((1-1); 0;)`: match index `1-1`, current index `0`, no conditions. -/
def accumRule {σ : Type} (items : List (RuleItem σ)) : Nat × List (Condition σ) :=
  accumGo (1 - 1) 0 [] items

/-- The `@record_failure` arm of `push_rules!`: a failure at `step_index`
is inserted into `failed_rules` only when `step_index >= match_index`
(at or after the match commit point); otherwise it is only traced, i.e.
contributes nothing to the diagnostics. -/
def recordFailure (ruleName : String) (matchIndex stepIndex : Nat)
    (cause : RuleFailureCause) (prov : Prov) : Finset FailedRule :=
  if stepIndex ≥ matchIndex then
    {⟨some (ruleName, stepIndex), prov.file, prov.line, prov.column, cause⟩}
  else ∅

variable [DecidableEq O]

mutual

/-- The `@body` phase of `push_rules!`, for one binding environment `s`:
evaluate the remaining conditions in order and produce, besides the pair
of the outputs inserted by the conclusion and of the `FailedRule`
diagnostics recorded, the final value of the step counter.  The generated
code declares one mutable `step_index` per rule (`let mut step_index =
0;` once the conclusion patterns have matched), increments it after every
satisfied condition — including inside the `for` loop of an iteration
condition, so the counter is shared across the loop's branches and never
reset between elements — and records a failure at the counter's current
value.  With no condition left the conclusion runs and inserts its value
into the output set, leaving the counter untouched. -/
def evalConds (ruleName : String) (matchIndex : Nat) (concl : σ → O)
    (conds : List (Condition σ)) (stepIndex : Nat) (s : σ) :
    (Finset O × Finset FailedRule) × Nat :=
  match conds with
  | [] => (({concl s}, ∅), stepIndex)
  | Condition.ifCond test text prov :: rest =>
      if test s then
        evalConds ruleName matchIndex concl rest (stepIndex + 1) s
      else
        ((∅, recordFailure ruleName matchIndex stepIndex
              (RuleFailureCause.IfFalse text) prov), stepIndex)
  | Condition.ifLet matcher pattern render prov :: rest =>
      match matcher s with
      | some s₂ => evalConds ruleName matchIndex concl rest (stepIndex + 1) s₂
      | none =>
          ((∅, recordFailure ruleName matchIndex stepIndex
                (RuleFailureCause.IfLetDidNotMatch pattern (render s)) prov), stepIndex)
  | Condition.letCond bind :: rest =>
      evalConds ruleName matchIndex concl rest (stepIndex + 1) (bind s)
  | Condition.iter source text prov :: rest =>
      match source s with
      | some elems => evalIter ruleName matchIndex concl rest (stepIndex + 1) elems
      | none =>
          ((∅, recordFailure ruleName matchIndex stepIndex
                (RuleFailureCause.IterationSourceError text) prov), stepIndex)
termination_by (conds.length, 0)

/-- The `for $p in ... { ... }` loop of the `(<expr> => <binding>)` arm:
the remaining conditions run once per produced element, each branch
starting from the `step_index` value the previous element's branch left
behind — the counter is one shared mutable variable, not reset between
elements — and the outputs and diagnostics of all branches are
accumulated.  The loop's final counter value is what any conditions of an
enclosing loop observe afterwards. -/
def evalIter (ruleName : String) (matchIndex : Nat) (concl : σ → O)
    (conds : List (Condition σ)) (stepIndex : Nat) (elems : List σ) :
    (Finset O × Finset FailedRule) × Nat :=
  match elems with
  | [] => ((∅, ∅), stepIndex)
  | x :: xs =>
      let r := evalConds ruleName matchIndex concl conds stepIndex x
      let rr := evalIter ruleName matchIndex concl conds r.2 xs
      ((r.1.1 ∪ rr.1.1, r.1.2 ∪ rr.1.2), rr.2)
termination_by (conds.length, elems.length + 1)

end

/-- One conclusion pattern component as the `@match` phase of `push_rules!`
treats it: an identity binder (`$pat0:ident`, which clones the input
component and always succeeds) or a structural pattern, which goes through
`Downcast::downcast` and succeeds only when the component's runtime shape
narrows (yielding the narrowed bindings). -/
inductive InputPattern (V : Type) where
  | ident
  | downcastPat (narrow : V → Option V)

/-- The `@match` phase: peel the conclusion patterns off one by one against
the input components, accumulating the bound values in order.  Any failing
downcast makes the whole match fail, and nothing of the rule's body runs.
(A length mismatch between patterns and components is rejected at compile
time by the macro with `compile_error!`, so such lists never reach the
generated code; the model maps them to a failed match.) -/
def matchInputs : List (InputPattern V) → List V → Option (List V)
  | [], [] => some []
  | InputPattern.ident :: ps, v :: vs =>
      (matchInputs ps vs).map (fun s => v :: s)
  | InputPattern.downcastPat narrow :: ps, v :: vs =>
      match narrow v with
      | some w => (matchInputs ps vs).map (fun s => w :: s)
      | none => none
  | _, _ => none

/-- One rule of a judgment as declared to `judgment_fn!`: its name (the
literal under the `---` separator), its conclusion patterns, its condition
token groups (conditions and the optional `!` marker), and its conclusion
expression over the bound values. -/
structure Rule (V O : Type) where
  name : String
  pats : List (InputPattern V)
  items : List (RuleItem (List V))
  concl : List V → O

/-- Evaluation of a single rule against the input components: match the
conclusion patterns, and only when all of them match run the condition
chain with `step_index = 0`.  An inapplicable rule contributes neither
outputs nor diagnostics. -/
def runRule (r : Rule V O) (inputs : List V) : Finset O × Finset FailedRule :=
  match matchInputs r.pats inputs with
  | none => (∅, ∅)
  | some s =>
      (evalConds r.name (accumRule r.items).1 r.concl (accumRule r.items).2 0 s).1

/-- The expansion of `push_rules!` for a whole judgment: every rule is
tried, and the per-rule outputs and diagnostics are accumulated into the
shared `output` and `failed_rules` sets. -/
def runRules (rules : List (Rule V O)) (inputs : List V) :
    Finset O × Finset FailedRule :=
  match rules with
  | [] => (∅, ∅)
  | r :: rs =>
      let a := runRule r inputs
      let b := runRules rs inputs
      (a.1 ∪ b.1, a.2 ∪ b.2)

end Formality

namespace Formality

/-! The coinductive fixed-point machinery.  `judgment.rs` delegates to
`fixed_point::fixed_point` over a thread-local
`JudgmentStack<J, O> = RefCell<FixedPointStack<J, Set<O>>>` (one stack per
judgment kind); `fixed_point.rs` itself is not among the staged sources,
so the stack and the loop are Modelled from the spec, §4.2: on entry the
input is looked up on this judgment's stack, and a re-entrant call returns
the current approximation recorded there; otherwise the input is pushed
with the empty set as initial approximation and the rule set is
re-evaluated until its result equals the stored approximation, the stored
approximation being replaced by the new result after every
non-converging round.

The "Next value" closure of `judgment.rs` (which clears and refills the
captured `failed_rules` set, lines 121-136) is modelled as a function `F`
from the stack it may consult through re-entrant calls to the pair of the
round's output set and the round's freshly collected failure set. -/

variable {I O : Type}

/-- Modelled from the spec: the per-judgment-kind call stack, associating
each in-progress input with its current best-known approximation of the
output set. -/
abbrev FixedPointStack (I O : Type) := List (I × Finset O)

/-- Modelled from the spec: the current approximation recorded on the stack
for `input`, when `input` is on the stack (an in-progress evaluation). -/
def lookupApprox [DecidableEq I] (stack : FixedPointStack I O) (input : I) :
    Option (Finset O) :=
  match stack with
  | [] => none
  | (j, a) :: rest => if input = j then some a else lookupApprox rest input

/-- Modelled from the spec: the Kleene iteration of §4.2.  Each round
begins by clearing the failure accumulator (`failed_rules.clear()` in
`judgment.rs`), runs the rule set `F` with the stack holding the current
approximation for `input` (so that re-entrant calls observe the latest
approximation), and compares the round's output set with the stored
approximation: equal means converged (return the approximation and this
round's failures), otherwise the approximation is replaced and iteration
continues.  `fuel` bounds the number of rounds: the engine itself never
bounds them, so a non-convergent rule set exhausts any `fuel` and is
reported as `none` (the non-termination the spec leaves as a caller
obligation). -/
def fpLoop [DecidableEq I] [DecidableEq O] (stack : FixedPointStack I O) (input : I)
    (F : FixedPointStack I O → Finset O × Finset FailedRule)
    (approx : Finset O) (failed_rules : Finset FailedRule) (fuel : Nat) :
    Option (Finset O × Finset FailedRule) :=
  match fuel with
  | 0 => none
  | fuel + 1 =>
      match F ((input, approx) :: stack) with
      | (out, roundFails) =>
          if out = approx then some (approx, roundFails)
          else fpLoop stack input F out roundFails fuel

/-- Modelled from the spec: `fixed_point::fixed_point` as §4.2 describes
it.  A re-entrant call (the input is already on this judgment's stack)
returns the current approximation without running any rule — `F` is never
consulted and the failure accumulator keeps its initial empty value.  A
fresh call pushes the input with the empty set as initial approximation
and iterates. -/
def fixed_point [DecidableEq I] [DecidableEq O] (stack : FixedPointStack I O) (input : I)
    (F : FixedPointStack I O → Finset O × Finset FailedRule) (fuel : Nat) :
    Option (Finset O × Finset FailedRule) :=
  match lookupApprox stack input with
  | some approx => some (approx, ∅)
  | none => fpLoop stack input F ∅ ∅ fuel

/-- The result of one call of the function `judgment_fn!` generates:
either the call panicked because a declared assertion (a fatal
precondition, `assert!($assert_expr)`) was false, or it returned a
`ProvenSet`. -/
inductive JudgmentResult (I O : Type) where
  | panicked
  | ok (r : ProvenSet I O)

/-- The body of the function generated by `judgment_fn!` (lines 59-144 of
`judgment.rs`), over an abstract rule-evaluation round `F` (the "Next
value" closure applied to the upcast input): check every declared
assertion (`assert!` panics on the first false one); try the trivial
fast-path pairs in order, returning a single-element proven set for the
first true condition; otherwise run the fixed point and wrap its output
set as `proven` when non-empty and as `failed_rules` of the last round's
diagnostics when empty.  Inputs arrive already upcast to their declared
types. -/
def judgment_fn [DecidableEq I] [DecidableEq O]
    (asserts : List (I → Bool))
    (trivials : List ((I → Bool) × (I → O)))
    (F : I → FixedPointStack I O → Finset O × Finset FailedRule)
    (stack : FixedPointStack I O) (input : I) (fuel : Nat) :
    Option (JudgmentResult I O) :=
  if asserts.all (fun a => a input) then
    match trivials.find? (fun t => t.1 input) with
    | some t => some (JudgmentResult.ok (ProvenSet.proven {t.2 input}))
    | none =>
        match fixed_point stack input (F input) fuel with
        | none => none
        | some (out, fails) =>
            some (JudgmentResult.ok
              (if out = ∅ then ProvenSet.failed_rules input fails
               else ProvenSet.proven out))
  else
    some JudgmentResult.panicked

end Formality

namespace Formality

/-! Helper lemmas about the rule engine and the fixed-point loop. -/

/-- Walking a rule's token groups never changes the match index when no `!`
marker occurs among them. -/
theorem accumGo_fst_of_no_bang {σ : Type} (items : List (RuleItem σ)) :
    RuleItem.bang ∉ items →
    ∀ (mi ci : Nat) (acc : List (Condition σ)), (accumGo mi ci acc items).1 = mi := by
  induction items with
  | nil => intro _ mi ci acc; rfl
  | cons it rest ih =>
      intro h mi ci acc
      cases it with
      | bang => exact absurd (List.mem_cons_self _ _) h
      | cond c =>
          rw [accumGo]
          exact ih (fun hm => h (List.mem_cons_of_mem _ hm)) mi (ci + 1) (acc ++ [c])

/-- Membership in the diagnostics recorded for one failure: an entry is
recorded only when the failing step is at or after the match commit point,
and it then carries the rule's name, the failing step and the cause. -/
theorem mem_recordFailure {ruleName : String} {mi st : Nat}
    {cause : RuleFailureCause} {p : Prov} {fr : FailedRule}
    (h : fr ∈ recordFailure ruleName mi st cause p) :
    fr = ⟨some (ruleName, st), p.file, p.line, p.column, cause⟩ ∧ mi ≤ st := by
  unfold recordFailure at h
  split at h
  · next hge => exact ⟨Finset.mem_singleton.1 h, hge⟩
  · simp at h

/-- Per-element loops only advance the shared step counter: given that
the condition chain itself never decreases it, neither does the loop. -/
theorem evalIter_stepIndex_le_aux {σ O : Type} [DecidableEq O] (ruleName : String)
    (mi : Nat) (concl : σ → O) (conds : List (Condition σ))
    (hA : ∀ (st : Nat) (s : σ), st ≤ (evalConds ruleName mi concl conds st s).2) :
    ∀ (st : Nat) (elems : List σ),
      st ≤ (evalIter ruleName mi concl conds st elems).2 := by
  intro st elems
  induction elems generalizing st with
  | nil => rw [evalIter]
  | cons x xs ih =>
      rw [evalIter]
      exact le_trans (hA st x) (ih _)

/-- The shared step counter never decreases along a condition chain. -/
theorem evalConds_stepIndex_le {σ O : Type} [DecidableEq O] (ruleName : String)
    (mi : Nat) (concl : σ → O) :
    ∀ (conds : List (Condition σ)) (st : Nat) (s : σ),
      st ≤ (evalConds ruleName mi concl conds st s).2 := by
  intro conds
  induction conds with
  | nil => intro st s; rw [evalConds]
  | cons c rest ih =>
      intro st s
      cases c with
      | ifCond test text p =>
          rw [evalConds]
          split
          · exact le_trans (Nat.le_succ st) (ih (st + 1) s)
          · exact le_refl st
      | ifLet matcher pattern render p =>
          rw [evalConds]
          split
          · exact le_trans (Nat.le_succ st) (ih (st + 1) _)
          · exact le_refl st
      | letCond bind =>
          rw [evalConds]
          exact le_trans (Nat.le_succ st) (ih (st + 1) _)
      | iter source text p =>
          rw [evalConds]
          split
          · exact le_trans (Nat.le_succ st)
              (evalIter_stepIndex_le_aux ruleName mi concl rest ih (st + 1) _)
          · exact le_refl st

/-- Per-element loops and counter values: outputs do not depend on the
counter the chain starts from (given that the chain's own outputs do
not). -/
theorem evalIter_out_aux {σ O : Type} [DecidableEq O] (ruleName : String)
    (mi : Nat) (concl : σ → O) (conds : List (Condition σ))
    (hA : ∀ (st st₂ : Nat) (s : σ),
      (evalConds ruleName mi concl conds st s).1.1
        = (evalConds ruleName mi concl conds st₂ s).1.1) :
    ∀ (st st₂ : Nat) (elems : List σ),
      (evalIter ruleName mi concl conds st elems).1.1
        = (evalIter ruleName mi concl conds st₂ elems).1.1 := by
  intro st st₂ elems
  induction elems generalizing st st₂ with
  | nil => rw [evalIter, evalIter]
  | cons x xs ih =>
      rw [evalIter, evalIter]
      simp only
      rw [hA st st₂ x, ih]

/-- The outputs of a condition chain do not depend on the counter it
starts from: only the diagnostics read the counter. -/
theorem evalConds_out_counter_irrel {σ O : Type} [DecidableEq O] (ruleName : String)
    (mi : Nat) (concl : σ → O) :
    ∀ (conds : List (Condition σ)) (st st₂ : Nat) (s : σ),
      (evalConds ruleName mi concl conds st s).1.1
        = (evalConds ruleName mi concl conds st₂ s).1.1 := by
  intro conds
  induction conds with
  | nil => intro st st₂ s; rw [evalConds, evalConds]
  | cons c rest ih =>
      intro st st₂ s
      cases c with
      | ifCond test text p =>
          rw [evalConds, evalConds]
          split
          · exact ih (st + 1) (st₂ + 1) s
          · rfl
      | ifLet matcher pattern render p =>
          rw [evalConds, evalConds]
          split
          · exact ih (st + 1) (st₂ + 1) _
          · rfl
      | letCond bind =>
          rw [evalConds, evalConds]
          exact ih (st + 1) (st₂ + 1) _
      | iter source text p =>
          rw [evalConds, evalConds]
          split
          · exact evalIter_out_aux ruleName mi concl rest (fun a b c => ih a b c)
              (st + 1) (st₂ + 1) _
          · rfl

/-- Outputs of the per-element loop of an iteration condition: exactly the
outputs of some element's continuation (stated at the loop's entry
counter; outputs do not depend on the counter). -/
theorem evalIter_out_mem {σ O : Type} [DecidableEq O] (ruleName : String)
    (mi : Nat) (concl : σ → O) (conds : List (Condition σ)) :
    ∀ (st : Nat) (elems : List σ) (o : O),
      o ∈ (evalIter ruleName mi concl conds st elems).1.1
        ↔ ∃ x ∈ elems, o ∈ (evalConds ruleName mi concl conds st x).1.1 := by
  intro st elems o
  induction elems generalizing st with
  | nil => simp [evalIter]
  | cons x xs ih =>
      rw [evalIter]
      simp only [Finset.mem_union, List.mem_cons]
      constructor
      · rintro (h | h)
        · exact ⟨x, Or.inl rfl, h⟩
        · obtain ⟨y, hy, hmem⟩ :=
            (ih (evalConds ruleName mi concl conds st x).2).1 h
          rw [evalConds_out_counter_irrel ruleName mi concl conds
            (evalConds ruleName mi concl conds st x).2 st y] at hmem
          exact ⟨y, Or.inr hy, hmem⟩
      · rintro ⟨y, hy | hy, hmem⟩
        · subst hy
          exact Or.inl hmem
        · refine Or.inr ((ih (evalConds ruleName mi concl conds st x).2).2 ⟨y, hy, ?_⟩)
          rw [evalConds_out_counter_irrel ruleName mi concl conds
            (evalConds ruleName mi concl conds st x).2 st y]
          exact hmem

/-- Diagnostics of the per-element loop of an iteration condition: each
comes from some element's continuation, run at a counter at or above the
loop's entry value (the counter the earlier branches left behind). -/
theorem evalIter_fails_mem {σ O : Type} [DecidableEq O] (ruleName : String)
    (mi : Nat) (concl : σ → O) (conds : List (Condition σ)) :
    ∀ (st : Nat) (elems : List σ) (fr : FailedRule),
      fr ∈ (evalIter ruleName mi concl conds st elems).1.2 →
      ∃ x ∈ elems, ∃ st₂, st ≤ st₂
        ∧ fr ∈ (evalConds ruleName mi concl conds st₂ x).1.2 := by
  intro st elems fr
  induction elems generalizing st with
  | nil => intro h; simp [evalIter] at h
  | cons x xs ih =>
      intro h
      rw [evalIter] at h
      simp only [Finset.mem_union] at h
      rcases h with h | h
      · exact ⟨x, List.mem_cons_self x xs, st, le_refl st, h⟩
      · obtain ⟨y, hy, st₂, hle, hmem⟩ := ih _ h
        exact ⟨y, List.mem_cons_of_mem x hy, st₂,
          le_trans (evalConds_stepIndex_le ruleName mi concl conds st x) hle, hmem⟩

/-- Every diagnostic emitted by a condition chain names this rule and an
index that is both at or after the match commit point (the
`step_index >= match_index` filter) and at or above the counter value the
chain was entered with. -/
theorem evalConds_failure_index {σ O : Type} [DecidableEq O] (ruleName : String)
    (mi : Nat) (concl : σ → O) :
    ∀ (conds : List (Condition σ)) (stepIndex : Nat) (s : σ) (fr : FailedRule),
      fr ∈ (evalConds ruleName mi concl conds stepIndex s).1.2 →
      ∃ idx, fr.rule_name_index = some (ruleName, idx) ∧ mi ≤ idx ∧ stepIndex ≤ idx := by
  intro conds
  induction conds with
  | nil => intro st s fr h; simp [evalConds] at h
  | cons c rest ih =>
      intro st s fr h
      cases c with
      | ifCond test text p =>
          rw [evalConds] at h
          split at h
          · obtain ⟨idx, h1, h2, h3⟩ := ih (st + 1) s fr h
            exact ⟨idx, h1, h2, le_trans (Nat.le_succ st) h3⟩
          · obtain ⟨rfl, hge⟩ := mem_recordFailure h
            exact ⟨st, rfl, hge, le_refl st⟩
      | ifLet matcher pattern render p =>
          rw [evalConds] at h
          split at h
          · obtain ⟨idx, h1, h2, h3⟩ := ih (st + 1) _ fr h
            exact ⟨idx, h1, h2, le_trans (Nat.le_succ st) h3⟩
          · obtain ⟨rfl, hge⟩ := mem_recordFailure h
            exact ⟨st, rfl, hge, le_refl st⟩
      | letCond bind =>
          rw [evalConds] at h
          obtain ⟨idx, h1, h2, h3⟩ := ih (st + 1) _ fr h
          exact ⟨idx, h1, h2, le_trans (Nat.le_succ st) h3⟩
      | iter source text p =>
          rw [evalConds] at h
          split at h
          · next elems heq =>
              obtain ⟨x, _, st₂, hle, hx⟩ :=
                evalIter_fails_mem ruleName mi concl rest (st + 1) elems fr h
              obtain ⟨idx, h1, h2, h3⟩ := ih st₂ x fr hx
              exact ⟨idx, h1, h2,
                le_trans (Nat.le_succ st) (le_trans hle h3)⟩
          · obtain ⟨rfl, hge⟩ := mem_recordFailure h
            exact ⟨st, rfl, hge, le_refl st⟩

end Formality

namespace Formality

/-- C9: two `Db` handles are equal — and likewise compare `Equal` and feed
identical data to the hasher — exactly when they wrap the identical
underlying implementor (the same `Arc` address, i.e. pointer identity)
and carry equal `SolverConfiguration` values; in particular a handle and
its clone are equal. -/
theorem db_handle_identity_equality :
    (∀ a b : Db, a.beq b = true ↔ (a.db = b.db ∧ a.solver_config = b.solver_config))
    ∧ (∀ a b : Db,
        a.cmp b = Ordering.eq ↔ (a.db = b.db ∧ a.solver_config = b.solver_config))
    ∧ (∀ a b : Db,
        a.hashStream = b.hashStream ↔ (a.db = b.db ∧ a.solver_config = b.solver_config))
    ∧ (∀ d : Db, d.beq d.clone = true) := by
  refine ⟨?_, ?_, ?_, ?_⟩
  · intro a b
    simp [Db.beq, Db.fields, Prod.ext_iff]
  · intro ⟨ad, ac⟩ ⟨bd, bc⟩
    cases ac; cases bc
    simp only [Db.cmp, Db.fields, SolverConfiguration.cmp, and_true]
    constructor
    · intro h
      rcases hc : compare ad bd with _ | _ | _ <;> rw [hc] at h
      · cases h
      · exact Nat.compare_eq_eq.1 hc
      · cases h
    · intro h
      rw [Nat.compare_eq_eq.2 h]
  · intro ⟨ad, ac⟩ ⟨bd, bc⟩
    cases ac; cases bc
    simp [Db.hashStream, Db.fields]
  · intro d
    simp [Db.beq, Db.clone, Db.fields]

/-- C10: `to_clauses` on a `Vec` is the in-order concatenation of the
clause lists of its elements (so the empty `Vec` yields `[]`), and on an
`Option` it yields `[]` for `None` and the inner value's clause list for
`Some`. -/
theorem to_clauses_vec_option_spec {P C T : Type} [ToClause P C T] :
    (∀ (v : List T) (program : P),
        @ToClause.to_clauses P C (List T) _ v program
          = (v.map (fun e => @ToClause.to_clauses P C T _ e program)).flatten)
    ∧ (∀ program : P, @ToClause.to_clauses P C (List T) _ ([] : List T) program = [])
    ∧ (∀ program : P,
        @ToClause.to_clauses P C (Option T) _ (none : Option T) program = [])
    ∧ (∀ (x : T) (program : P),
        @ToClause.to_clauses P C (Option T) _ (some x) program
          = @ToClause.to_clauses P C T _ x program) := by
  refine ⟨?_, ?_, ?_, ?_⟩
  · intro v program
    simp [ToClause.to_clauses, List.flatMap]
  · intro program
    rfl
  · intro program
    rfl
  · intro x program
    simp [ToClause.to_clauses, Option.toList, List.flatMap]

/-- C2: a re-entrant call — one whose input is already on this judgment's
stack because an outer evaluation of the same judgment kind with the same
input is in progress — returns the approximation currently stored for that
input (with no diagnostics), for every rule-evaluation round function and
fuel: rule evaluation is not consulted again.  During the first round of a
fresh evaluation the stored approximation such a re-entrant call observes
is the empty set. -/
theorem reentrant_call_returns_current_approximation
    {I O : Type} [DecidableEq I] [DecidableEq O]
    (stack : FixedPointStack I O) (input : I) (A : Finset O)
    (h : lookupApprox stack input = some A) :
    (∀ (F : FixedPointStack I O → Finset O × Finset FailedRule) (fuel : Nat),
        fixed_point stack input F fuel = some (A, ∅))
    ∧ (∀ (stack₂ : FixedPointStack I O)
          (F : FixedPointStack I O → Finset O × Finset FailedRule) (fuel : Nat),
        fixed_point ((input, (∅ : Finset O)) :: stack₂) input F fuel = some (∅, ∅)) := by
  constructor
  · intro F fuel
    simp [fixed_point, h]
  · intro stack₂ F fuel
    simp [fixed_point, lookupApprox]

/-- Witness: with `5` in progress at approximation `{3}`, a re-entrant
call for `5` returns `{3}` even with no fuel and a round function that
would return nothing. -/
theorem reentrant_call_returns_current_approximation_witness :
    @fixed_point Nat Nat _ _ [(5, {3})] 5 (fun _ => (∅, ∅)) 0 = some ({3}, ∅) :=
  (reentrant_call_returns_current_approximation [(5, {3})] 5 {3} (by decide)).1
    (fun _ => (∅, ∅)) 0

/-- C5: when every declared assertion holds on the (already upcast) input
and some trivial condition is true, the judgment returns `proven` of the
single-element set holding the first such pair's result — identically for
every round function, stack and fuel, so no rule is evaluated, the call
stack is not consulted and no fixed-point round runs; and the assertions
are checked first: a false assertion panics whatever the trivial pairs
would say. -/
theorem trivial_fast_path {I O : Type} [DecidableEq I] [DecidableEq O]
    (asserts : List (I → Bool)) (trivials : List ((I → Bool) × (I → O)))
    (input : I) (t : (I → Bool) × (I → O))
    (hA : asserts.all (fun a => a input) = true)
    (hT : trivials.find? (fun t => t.1 input) = some t) :
    (∀ (F : I → FixedPointStack I O → Finset O × Finset FailedRule)
       (stack : FixedPointStack I O) (fuel : Nat),
        judgment_fn asserts trivials F stack input fuel
          = some (JudgmentResult.ok (ProvenSet.proven {t.2 input})))
    ∧ (∀ (asserts₂ : List (I → Bool)) (trivials₂ : List ((I → Bool) × (I → O)))
         (F : I → FixedPointStack I O → Finset O × Finset FailedRule)
         (stack : FixedPointStack I O) (fuel : Nat),
        asserts₂.all (fun a => a input) = false →
        judgment_fn asserts₂ trivials₂ F stack input fuel
          = some JudgmentResult.panicked) := by
  constructor
  · intro F stack fuel
    simp [judgment_fn, hA, hT]
  · intro asserts₂ trivials₂ F stack fuel hA₂
    simp [judgment_fn, hA₂]

/-- Witness: with no assertion and the trivial pair (always true, add one),
input `4` yields `proven {5}` with no fuel at all. -/
theorem trivial_fast_path_witness :
    @judgment_fn Nat Nat _ _ [] [(fun _ => true, fun n => n + 1)]
        (fun _ _ => (∅, ∅)) [] 4 0
      = some (JudgmentResult.ok (ProvenSet.proven {5})) :=
  (trivial_fast_path [] [(fun _ => true, fun n => n + 1)] 4
    (fun _ => true, fun n => n + 1) rfl rfl).1 (fun _ _ => (∅, ∅)) [] 0

end Formality

namespace Formality

/-- C1: past the assertions and the trivial fast paths, the outcome wraps
the converged output set `S` as `proven S` exactly when `S` is non-empty
and as `failed_rules` of the last round's diagnostics exactly when `S` is
empty; and no judgment evaluation whatsoever returns `proven` of the
empty set. -/
theorem proven_iff_converged_nonempty
    {I O : Type} [DecidableEq I] [DecidableEq O]
    (asserts : List (I → Bool)) (trivials : List ((I → Bool) × (I → O)))
    (F : I → FixedPointStack I O → Finset O × Finset FailedRule)
    (stack : FixedPointStack I O) (input : I) (fuel : Nat)
    (S : Finset O) (fails : Finset FailedRule)
    (hA : asserts.all (fun a => a input) = true)
    (hT : trivials.find? (fun t => t.1 input) = none)
    (hfp : fixed_point stack input (F input) fuel = some (S, fails)) :
    (judgment_fn asserts trivials F stack input fuel
        = some (JudgmentResult.ok
            (if S = ∅ then ProvenSet.failed_rules input fails else ProvenSet.proven S)))
    ∧ (S ≠ ∅ ↔ judgment_fn asserts trivials F stack input fuel
          = some (JudgmentResult.ok (ProvenSet.proven S)))
    ∧ (S = ∅ ↔ judgment_fn asserts trivials F stack input fuel
          = some (JudgmentResult.ok (ProvenSet.failed_rules input fails)))
    ∧ (∀ (asserts₂ : List (I → Bool)) (trivials₂ : List ((I → Bool) × (I → O)))
         (F₂ : I → FixedPointStack I O → Finset O × Finset FailedRule)
         (stack₂ : FixedPointStack I O) (input₂ : I) (fuel₂ : Nat) (S₂ : Finset O),
        judgment_fn asserts₂ trivials₂ F₂ stack₂ input₂ fuel₂
          = some (JudgmentResult.ok (ProvenSet.proven S₂)) → S₂.Nonempty) := by
  have hmain : judgment_fn asserts trivials F stack input fuel
      = some (JudgmentResult.ok
          (if S = ∅ then ProvenSet.failed_rules input fails else ProvenSet.proven S)) := by
    simp [judgment_fn, hA, hT, hfp]
  refine ⟨hmain, ?_, ?_, ?_⟩
  · rw [hmain]
    by_cases hS : S = ∅
    · simp [hS, ProvenSet.failed_rules]
    · simp [hS]
  · rw [hmain]
    by_cases hS : S = ∅
    · simp [hS]
    · simp [hS, ProvenSet.failed_rules]
  · intro asserts₂ trivials₂ F₂ stack₂ input₂ fuel₂ S₂ h
    unfold judgment_fn at h
    split at h
    · split at h
      · next t ht =>
          simp only [Option.some.injEq, JudgmentResult.ok.injEq,
            ProvenSet.proven.injEq] at h
          exact h ▸ Finset.singleton_nonempty _
      · split at h
        · exact Option.noConfusion h
        · split at h
          · simp [ProvenSet.failed_rules] at h
          · next hout =>
              simp only [Option.some.injEq, JudgmentResult.ok.injEq,
                ProvenSet.proven.injEq] at h
              exact h ▸ Finset.nonempty_iff_ne_empty.2 hout
    · simp at h

/-- Witness: a round function that immediately proposes `{7}` converges in
two rounds; the outcome is `proven {7}`, and `{7}` is indeed non-empty. -/
theorem proven_iff_converged_nonempty_witness :
    (@judgment_fn Nat Nat _ _ [] [] (fun _ _ => ({7}, ∅)) [] 0 2
        = some (JudgmentResult.ok
            (if ({7} : Finset Nat) = ∅ then ProvenSet.failed_rules 0 ∅
             else ProvenSet.proven {7})))
    ∧ (({7} : Finset Nat) ≠ ∅ ↔ @judgment_fn Nat Nat _ _ [] [] (fun _ _ => ({7}, ∅)) [] 0 2
          = some (JudgmentResult.ok (ProvenSet.proven {7})))
    ∧ (({7} : Finset Nat) = ∅ ↔ @judgment_fn Nat Nat _ _ [] [] (fun _ _ => ({7}, ∅)) [] 0 2
          = some (JudgmentResult.ok (ProvenSet.failed_rules 0 ∅)))
    ∧ (∀ (asserts₂ : List (Nat → Bool)) (trivials₂ : List ((Nat → Bool) × (Nat → Nat)))
         (F₂ : Nat → FixedPointStack Nat Nat → Finset Nat × Finset FailedRule)
         (stack₂ : FixedPointStack Nat Nat) (input₂ : Nat) (fuel₂ : Nat) (S₂ : Finset Nat),
        judgment_fn asserts₂ trivials₂ F₂ stack₂ input₂ fuel₂
          = some (JudgmentResult.ok (ProvenSet.proven S₂)) → S₂.Nonempty) :=
  proven_iff_converged_nonempty [] [] (fun _ _ => ({7}, ∅)) [] 0 2 {7} ∅
    rfl rfl (by decide)

/-- C4: the failure set a converging fixed-point loop returns is exactly
the set of diagnostics recorded during its final round — the rule
evaluation at the converged approximation, which reproduces that
approximation — and the failures of earlier rounds are discarded before
each new round: the result never depends on the accumulator's previous
contents. -/
theorem failed_rules_from_last_iteration
    {I O : Type} [DecidableEq I] [DecidableEq O]
    (stack : FixedPointStack I O) (input : I)
    (F : FixedPointStack I O → Finset O × Finset FailedRule)
    (approx : Finset O) (fr : Finset FailedRule) (fuel : Nat)
    (out : Finset O) (fails : Finset FailedRule)
    (h : fpLoop stack input F approx fr fuel = some (out, fails)) :
    fails = (F ((input, out) :: stack)).2
    ∧ (F ((input, out) :: stack)).1 = out
    ∧ ∀ fr₂ : Finset FailedRule,
        fpLoop stack input F approx fr₂ fuel = some (out, fails) := by
  induction fuel generalizing approx fr with
  | zero => exact Option.noConfusion h
  | succ n ih =>
      rw [fpLoop] at h
      rcases hF : F ((input, approx) :: stack) with ⟨o, rf⟩
      rw [hF] at h
      simp only at h
      by_cases ho : o = approx
      · rw [if_pos ho] at h
        simp only [Option.some.injEq, Prod.mk.injEq] at h
        obtain ⟨rfl, rfl⟩ := h
        subst ho
        refine ⟨by rw [hF], by rw [hF], ?_⟩
        intro fr₂
        rw [fpLoop, hF]
        simp
      · rw [if_neg ho] at h
        obtain ⟨h1, h2, _⟩ := ih o rf h
        refine ⟨h1, h2, ?_⟩
        intro fr₂
        rw [fpLoop, hF]
        simp only
        rw [if_neg ho]
        exact h

/-- Witness: a one-round loop that converges immediately on the empty set
returns exactly that round's single diagnostic, whatever the accumulator
held before. -/
theorem failed_rules_from_last_iteration_witness :
    (({⟨some (("r1"), 0), ("judgment.rs"), 357, 13, RuleFailureCause.IfFalse ("c")⟩}
        : Finset FailedRule)
      = ((fun _ => ((∅ : Finset Nat),
            ({⟨some (("r1"), 0), ("judgment.rs"), 357, 13, RuleFailureCause.IfFalse ("c")⟩}
              : Finset FailedRule)))
          ((0, (∅ : Finset Nat)) :: ([] : FixedPointStack Nat Nat))).2)
    ∧ (((fun _ => ((∅ : Finset Nat),
            ({⟨some (("r1"), 0), ("judgment.rs"), 357, 13, RuleFailureCause.IfFalse ("c")⟩}
              : Finset FailedRule)))
          ((0, (∅ : Finset Nat)) :: ([] : FixedPointStack Nat Nat))).1 = ∅)
    ∧ ∀ fr₂ : Finset FailedRule,
        fpLoop [] 0
            (fun _ => ((∅ : Finset Nat),
              ({⟨some (("r1"), 0), ("judgment.rs"), 357, 13, RuleFailureCause.IfFalse ("c")⟩}
                : Finset FailedRule)))
            ∅ fr₂ 1
          = some (∅,
              {⟨some (("r1"), 0), ("judgment.rs"), 357, 13, RuleFailureCause.IfFalse ("c")⟩}) :=
  failed_rules_from_last_iteration [] 0
    (fun _ => (∅, {⟨some (("r1"), 0), ("judgment.rs"), 357, 13, RuleFailureCause.IfFalse ("c")⟩}))
    ∅ ∅ 1 ∅
    {⟨some (("r1"), 0), ("judgment.rs"), 357, 13, RuleFailureCause.IfFalse ("c")⟩}
    (by decide)

/-- C8: judgment evaluation is deterministic.  The rule conditions and the
knowledge-base queries they make are functions (a fixed knowledge base
with deterministic query methods), so two top-level evaluations — the
per-kind stack is empty whenever no evaluation of this judgment kind is in
progress — of equal inputs return equal outcomes: equal proven sets, or
failed judgments carrying equal `FailedRule` sets. -/
theorem judgment_evaluation_deterministic
    {I O : Type} [DecidableEq I] [DecidableEq O]
    (asserts : List (I → Bool)) (trivials : List ((I → Bool) × (I → O)))
    (F : I → FixedPointStack I O → Finset O × Finset FailedRule)
    (i₁ i₂ : I) (fuel : Nat) (h : i₁ = i₂) :
    (judgment_fn asserts trivials F [] i₁ fuel
        = judgment_fn asserts trivials F [] i₂ fuel)
    ∧ (∀ S₁ S₂ : Finset O,
        judgment_fn asserts trivials F [] i₁ fuel
            = some (JudgmentResult.ok (ProvenSet.proven S₁)) →
        judgment_fn asserts trivials F [] i₂ fuel
            = some (JudgmentResult.ok (ProvenSet.proven S₂)) →
        S₁ = S₂)
    ∧ (∀ f₁ f₂ : FailedJudgment I,
        judgment_fn asserts trivials F [] i₁ fuel
            = some (JudgmentResult.ok (ProvenSet.failed f₁)) →
        judgment_fn asserts trivials F [] i₂ fuel
            = some (JudgmentResult.ok (ProvenSet.failed f₂)) →
        f₁.failed_rules = f₂.failed_rules ∧ f₁.input = f₂.input) := by
  subst h
  refine ⟨rfl, ?_, ?_⟩
  · intro S₁ S₂ h₁ h₂
    rw [h₁] at h₂
    simpa using h₂
  · intro f₁ f₂ h₁ h₂
    rw [h₁] at h₂
    simp only [Option.some.injEq, JudgmentResult.ok.injEq,
      ProvenSet.failed.injEq] at h₂
    exact ⟨by rw [h₂], by rw [h₂]⟩

/-- Witness: the two evaluations of input `3` coincide. -/
theorem judgment_evaluation_deterministic_witness :
    (@judgment_fn Nat Nat _ _ [] [] (fun _ _ => (∅, ∅)) [] 3 1
        = @judgment_fn Nat Nat _ _ [] [] (fun _ _ => (∅, ∅)) [] 3 1) :=
  (judgment_evaluation_deterministic [] [] (fun _ _ => (∅, ∅)) 3 3 1 rfl).1

end Formality

namespace Formality

/-- C3 (amended): recording is decided against the rule's running step
counter, not against the failing condition's position.  The counter starts
at `0`, is incremented once per satisfied condition, and is shared across
the branches an iteration condition forks (never reset between elements);
a failure is recorded as a `FailedRule` exactly when the counter is at or
after the match commit point and suppressed when it is still below it.
Every recorded diagnostic therefore carries an index at or after the
commit point and at or above the counter's value at entry to the chain;
a rule without a `!` marker gets commit point `0` (the accumulator's
initial `1-1`), so all of its condition failures are recorded.  Because a
later branch inherits the counter the earlier branches left, a failure at
a condition strictly before the marker can still be recorded, at the
inflated counter value — see the counterexample below. -/
theorem commit_point_counter_policy {σ O : Type} [DecidableEq O]
    (ruleName : String) (mi : Nat) (concl : σ → O) :
    (∀ (st : Nat) (cause : RuleFailureCause) (p : Prov),
        (mi ≤ st → recordFailure ruleName mi st cause p
            = {⟨some (ruleName, st), p.file, p.line, p.column, cause⟩})
        ∧ (st < mi → recordFailure ruleName mi st cause p = ∅))
    ∧ (∀ (test : σ → Bool) (text : String) (p : Prov)
         (rest : List (Condition σ)) (st : Nat) (s : σ),
        test s = false →
        evalConds ruleName mi concl (Condition.ifCond test text p :: rest) st s
          = ((∅, recordFailure ruleName mi st (RuleFailureCause.IfFalse text) p), st))
    ∧ (∀ (conds : List (Condition σ)) (st : Nat) (s : σ) (fr : FailedRule),
        fr ∈ (evalConds ruleName mi concl conds st s).1.2 →
        ∃ idx, fr.rule_name_index = some (ruleName, idx) ∧ mi ≤ idx ∧ st ≤ idx)
    ∧ (∀ (items : List (RuleItem σ)), RuleItem.bang ∉ items → (accumRule items).1 = 0)
    ∧ (∀ (st : Nat) (cause : RuleFailureCause) (p : Prov),
        recordFailure ruleName 0 st cause p
          = {⟨some (ruleName, st), p.file, p.line, p.column, cause⟩}) := by
  refine ⟨?_, ?_, ?_, ?_, ?_⟩
  · intro st cause p
    constructor
    · intro hge
      simp [recordFailure, hge]
    · intro hlt
      simp [recordFailure, Nat.not_le.2 hlt]
  · intro test text p rest st s hfalse
    simp [evalConds, hfalse]
  · exact evalConds_failure_index ruleName mi concl
  · intro items hitems
    exact accumGo_fst_of_no_bang items hitems (1 - 1) 0 []
  · intro st cause p
    simp [recordFailure]

/-- Provenance literals for the commit-point counterexample rule. -/
def cexProvSrc : Prov := ⟨("judgment.rs"), 319, 9⟩

/-- Provenance of the counterexample's test `c`. -/
def cexProvC : Prov := ⟨("judgment.rs"), 291, 13⟩

/-- Provenance of the counterexample's test `d`. -/
def cexProvD : Prov := ⟨("judgment.rs"), 291, 27⟩

/-- The condition token groups `(src => x) (if c) ! (if d)` of the
commit-point counterexample: an iteration producing the bindings `[1]`
and `[2]`, a test `c` true only of `[1]`, the match commit point, and a
test `d` that always fails.  The commit point is therefore `2` and `c` is
the condition at position `1`, strictly before it. -/
def cexItems : List (RuleItem (List Nat)) :=
  [RuleItem.cond (Condition.iter (fun _ => some [[1], [2]]) ("src") cexProvSrc),
   RuleItem.cond (Condition.ifCond (fun s => s == [1]) ("c") cexProvC),
   RuleItem.bang,
   RuleItem.cond (Condition.ifCond (fun _ => false) ("d") cexProvD)]

/-- The commit-point counterexample rule: identity conclusion pattern,
the conditions of `cexItems`, a constant conclusion. -/
def cexRule : Rule Nat Nat :=
  ⟨("cex"), [InputPattern.ident], cexItems, fun _ => 0⟩

/-- Counterexample to the frozen claim that a condition failure strictly
before the commit point is suppressed from the diagnostics: the commit
point of `cexRule` is `2` and the test `c` is the condition at position
`1`.  On input `[0]` the iteration yields two bindings: the first passes
`c` (advancing the shared counter to `2`) and fails `d` at counter `2`;
the second then fails `c` — strictly before the marker — but the counter
the first branch left behind is already `2`, so its failure passes the
`step_index >= match_index` filter and is recorded, at the inflated
index `2`. -/
theorem commit_point_suppression_counterexample :
    (accumRule cexItems).1 = 2
    ∧ (runRule cexRule [0]).2
        = {⟨some (("cex"), 2), ("judgment.rs"), 291, 27, RuleFailureCause.IfFalse ("d")⟩,
           ⟨some (("cex"), 2), ("judgment.rs"), 291, 13, RuleFailureCause.IfFalse ("c")⟩} := by
  have hc1 : (([1] : List Nat) == [1]) = true := by decide
  have hc2 : (([2] : List Nat) == [1]) = false := by decide
  constructor
  · decide
  · simp [runRule, cexRule, cexItems, matchInputs, accumRule, accumGo,
      evalConds, evalIter, recordFailure, hc1, hc2,
      cexProvSrc, cexProvC, cexProvD, ← Finset.insert_eq]

/-- C6: a sub-judgment iteration condition whose source expression cannot
be converted into a sequence stops the rule there, with (subject to the
commit-point filter) a single diagnostic of cause
*iteration-source-error* and the shared step counter untouched; when the
conversion produces elements, the remaining conditions and the conclusion
are evaluated once per produced element: the condition's outputs are
exactly those of some element's continuation (one candidate batch per
element, possibly none — outputs do not depend on the shared counter),
and each of its diagnostics comes from some element's continuation, run
at the counter value the earlier branches left (at least the entry value
plus one). -/
theorem iteration_condition_semantics {σ O : Type} [DecidableEq O]
    (ruleName : String) (mi : Nat) (concl : σ → O)
    (source : σ → Option (List σ)) (text : String) (p : Prov)
    (rest : List (Condition σ)) (st : Nat) (s : σ) :
    (source s = none →
        evalConds ruleName mi concl (Condition.iter source text p :: rest) st s
          = ((∅, recordFailure ruleName mi st
                (RuleFailureCause.IterationSourceError text) p), st))
    ∧ (∀ elems : List σ, source s = some elems →
        (∀ o : O,
            o ∈ (evalConds ruleName mi concl
                    (Condition.iter source text p :: rest) st s).1.1
              ↔ ∃ x ∈ elems,
                  o ∈ (evalConds ruleName mi concl rest (st + 1) x).1.1)
        ∧ (∀ fr : FailedRule,
            fr ∈ (evalConds ruleName mi concl
                    (Condition.iter source text p :: rest) st s).1.2 →
            ∃ x ∈ elems, ∃ st₂, st + 1 ≤ st₂
              ∧ fr ∈ (evalConds ruleName mi concl rest st₂ x).1.2)) := by
  constructor
  · intro hnone
    simp [evalConds, hnone]
  · intro elems hsome
    constructor
    · intro o
      rw [evalConds, hsome]
      exact evalIter_out_mem ruleName mi concl rest (st + 1) elems o
    · intro fr hfr
      rw [evalConds, hsome] at hfr
      exact evalIter_fails_mem ruleName mi concl rest (st + 1) elems fr hfr

/-- C7: when some conclusion-pattern component is a structural pattern
whose narrowing fails on the corresponding input component, the whole
component-wise match fails, and the rule contributes no outputs and no
diagnostics — whatever its conditions and wherever its commit point. -/
theorem inapplicable_rule_contributes_nothing {V O : Type} [DecidableEq O]
    (pats : List (InputPattern V)) (vals : List V) (k : Nat)
    (narrow : V → Option V) (v : V)
    (hp : pats[k]? = some (InputPattern.downcastPat narrow))
    (hv : vals[k]? = some v)
    (hd : narrow v = none) :
    matchInputs pats vals = none
    ∧ ∀ (name : String) (items : List (RuleItem (List V))) (concl : List V → O),
        runRule ⟨name, pats, items, concl⟩ vals = (∅, ∅) := by
  have hm : matchInputs pats vals = none := by
    induction pats generalizing vals k with
    | nil => simp at hp
    | cons pt ps ih =>
        cases vals with
        | nil =>
            cases pt with
            | ident => rfl
            | downcastPat d => rfl
        | cons w ws =>
            cases k with
            | zero =>
                simp only [List.getElem?_cons_zero, Option.some.injEq] at hp hv
                subst hp
                subst hv
                simp [matchInputs, hd]
            | succ k₂ =>
                simp only [List.getElem?_cons_succ] at hp hv
                have htail := ih ws k₂ hp hv
                cases pt with
                | ident => simp [matchInputs, htail]
                | downcastPat d =>
                    rw [matchInputs]
                    rcases hdw : d w with _ | w₂
                    · rfl
                    · simp [htail]
  exact ⟨hm, fun name items concl => by simp [runRule, hm]⟩

/-- Witness: a single downcast pattern that fails on input `[0]` makes the
rule inapplicable: no match, no outputs, no diagnostics, for every
condition list. -/
theorem inapplicable_rule_contributes_nothing_witness :
    matchInputs [InputPattern.downcastPat (fun _ => (none : Option Nat))] [0] = none
    ∧ ∀ (name : String) (items : List (RuleItem (List Nat)))
        (concl : List Nat → Nat),
        runRule ⟨name, [InputPattern.downcastPat (fun _ => none)], items, concl⟩ [0]
          = (∅, ∅) :=
  inapplicable_rule_contributes_nothing
    [InputPattern.downcastPat (fun _ => none)] [0] 0 (fun _ => none) 0
    rfl rfl rfl

end Formality
